import Mathlib

/-!
Verification of the Erlang B numerical core of `erlang_channels_web.py`.

The engine is embedded shallowly over `ℚ` (exact real arithmetic):

* `erlang_b N A` models `ErlangCalculator.erlang_b`, including the `N == 0`
  branch and the `try/except (OverflowError, ValueError)` guard around the
  direct factorial/power evaluation.  Float overflow is modelled by an
  explicit magnitude threshold `floatMax = 2 ^ 1024`: `A ** N` and the
  int-to-float conversion of `math.factorial(k)` raise `OverflowError`
  exactly when the magnitude reaches the threshold, while `+`, `/` on
  in-range values are exact.
* `erlang_bRun` is the exception-level semantics of the same function:
  `.error e` means the Python call raises an uncaught exception `e`
  (only `ZeroDivisionError` can escape the `except` clause, which catches
  `OverflowError` and `ValueError`).
* `erlang_b_inverse` models `ErlangCalculator.erlang_b_inverse`
  (linear scan `N = 1 .. max_channels`).
* `erlang_a_from_pr` models `ErlangCalculator.erlang_a_from_pr`
  (guards, exponential bracketing loop, bisection loop); the unbounded
  `while` doubling loop is modelled with an explicit fuel parameter,
  `.ok none` models the `float('inf')` return, and `.error .valueErr`
  models the `raise ValueError` on non-positive `N`.
-/

/-- Magnitude threshold at which IEEE-754 double arithmetic overflows:
`2 ^ 1024`. `math.factorial 170 < floatMax < math.factorial 171`. -/
def floatMax : ℚ := ((2 ^ 1024 : ℕ) : ℚ)

/-- Python exception kinds that can arise in the numerical core:
`OverflowError`, `ZeroDivisionError`, `ValueError`. -/
inductive PyErr
  | overflow
  | zeroDiv
  | valueErr
  deriving DecidableEq

instance {ε α : Type} [DecidableEq ε] [DecidableEq α] : DecidableEq (Except ε α) := fun a b =>
  match a, b with
  | .ok x, .ok y =>
    if h : x = y then .isTrue (by rw [h]) else .isFalse (fun hc => h (Except.ok.inj hc))
  | .ok _, .error _ => .isFalse (fun hc => Except.noConfusion hc)
  | .error _, .ok _ => .isFalse (fun hc => Except.noConfusion hc)
  | .error e, .error f =>
    if h : e = f then .isTrue (by rw [h]) else .isFalse (fun hc => h (Except.error.inj hc))

/-- A float-producing operation: returns its exact value if the magnitude is
below the overflow threshold, otherwise raises `OverflowError`. -/
def chk (x : ℚ) : Except PyErr ℚ :=
  if -floatMax < x ∧ x < floatMax then .ok x else .error .overflow

/-- Python division: raises `ZeroDivisionError` on a zero divisor. -/
def pyDiv (x y : ℚ) : Except PyErr ℚ :=
  if y = 0 then .error .zeroDiv else .ok (x / y)

/-- One term `(A ** k) / math.factorial(k)` of the direct evaluation:
the power and the int-to-float conversion of the factorial can overflow. -/
def termE (A : ℚ) (k : ℕ) : Except PyErr ℚ :=
  match chk (A ^ k) with
  | .error e => .error e
  | .ok p =>
    match chk ((Nat.factorial k : ℚ)) with
    | .error e => .error e
    | .ok f => pyDiv p f

/-- `sum((A ** k) / math.factorial(k) for k in range(n))`, evaluated left to
right, propagating the first exception. -/
def sumE (A : ℚ) : ℕ → Except PyErr ℚ
  | 0 => .ok 0
  | n + 1 =>
    match sumE A n with
    | .error e => .error e
    | .ok s =>
      match termE A n with
      | .error e => .error e
      | .ok t => .ok (s + t)

/-- The body of the `try` block of `erlang_b`: numerator, then denominator,
then the final division. -/
def erlang_bTry (N : ℕ) (A : ℚ) : Except PyErr ℚ :=
  match termE A N with
  | .error e => .error e
  | .ok numerator =>
    match sumE A (N + 1) with
    | .error e => .error e
    | .ok denominator => pyDiv numerator denominator

/-- Value semantics of `ErlangCalculator.erlang_b`: the `N == 0` branch, and
otherwise the `try` block with every caught failure mapped to the `1.0`
sentinel. -/
def erlang_b (N : ℕ) (A : ℚ) : ℚ :=
  if N = 0 then (if 0 < A then 1 else 0)
  else
    match erlang_bTry N A with
    | .ok v => v
    | .error _ => 1

/-- Exception semantics of `ErlangCalculator.erlang_b`: the `except` clause
catches only `OverflowError` and `ValueError`, so a `ZeroDivisionError`
escapes as an uncaught exception. -/
def erlang_bRun (N : ℕ) (A : ℚ) : Except PyErr ℚ :=
  if N = 0 then .ok (if 0 < A then 1 else 0)
  else
    match erlang_bTry N A with
    | .ok v => .ok v
    | .error .overflow => .ok 1
    | .error .valueErr => .ok 1
    | .error .zeroDiv => .error .zeroDiv

/-- The Erlang B closed form exactly as the spec writes it:
`Pr = (A^N / N!) / Σ_{k=0..N} (A^k / k!)`. -/
def erlangB_spec (N : ℕ) (A : ℚ) : ℚ :=
  (A ^ N / (Nat.factorial N : ℚ)) /
    ∑ k in Finset.range (N + 1), A ^ k / (Nat.factorial k : ℚ)

/-- The scan `for N in range(start, start + fuel)` of `erlang_b_inverse`:
return the first `N` with `erlang_b N A ≤ Pr`, else `maxC`. -/
def scanFrom (A Pr : ℚ) (maxC : ℕ) : ℕ → ℕ → ℕ
  | _, 0 => maxC
  | start, fuel + 1 =>
    if erlang_b start A ≤ Pr then start else scanFrom A Pr maxC (start + 1) fuel

/-- `ErlangCalculator.erlang_b_inverse`: guards, then the scan
`for N in range(1, max_channels + 1)` returning the first hit, else
`max_channels`. -/
def erlang_b_inverse (A Pr : ℚ) (maxC : ℕ) : ℕ :=
  if A ≤ 0 then 0
  else if 1 ≤ Pr then 1
  else scanFrom A Pr maxC 1 maxC

/-- The doubling loop `while erlang_b(N, high) < Pr and high < max_A`,
wrapped in `try/except`: `none` means an exception escaped `erlang_b`
inside the loop (so the handler returns `max_A`).  `fuel` bounds the
number of iterations of the model of the unbounded `while`. -/
def bracketLoop (N : ℕ) (Pr maxA : ℚ) : ℕ → ℚ → Option ℚ
  | 0, high => some high
  | fuel + 1, high =>
    match erlang_bRun N high with
    | .error _ => none
    | .ok v =>
      if v < Pr ∧ high < maxA then bracketLoop N Pr maxA fuel (2 * high) else some high

/-- The bisection loop `for _ in range(max_iter)` of `erlang_a_from_pr`;
an exception raised by `erlang_b` here is uncaught and propagates. -/
def bisectLoop (N : ℕ) (Pr tol : ℚ) : ℕ → ℚ → ℚ → Except PyErr ℚ
  | 0, low, high => .ok ((low + high) / 2)
  | it + 1, low, high =>
    match erlang_bRun N ((low + high) / 2) with
    | .error e => .error e
    | .ok val =>
      if |val - Pr| ≤ tol then .ok ((low + high) / 2)
      else if val < Pr then bisectLoop N Pr tol it ((low + high) / 2) high
      else bisectLoop N Pr tol it low ((low + high) / 2)

/-- The part of `erlang_a_from_pr` after the bracketing loop: the
re-evaluation `if erlang_b(N, high) < Pr: return max_A` (outside the
`try`, so an exception here propagates) followed by the bisection loop. -/
def afterBracket (N : ℕ) (Pr tol : ℚ) (maxIter : ℕ) (maxA high : ℚ) :
    Except PyErr (Option ℚ) :=
  match erlang_bRun N high with
  | .error e => .error e
  | .ok v =>
    if v < Pr then .ok (some maxA)
    else
      match bisectLoop N Pr tol maxIter 0 high with
      | .error e => .error e
      | .ok a => .ok (some a)

/-- `ErlangCalculator.erlang_a_from_pr`.  `.error .valueErr` models the
`raise ValueError` for `N <= 0`; `.ok none` models the `float('inf')`
return; `.ok (some a)` a finite result `a`. -/
def erlang_a_from_pr (N : ℤ) (Pr tol : ℚ) (maxIter : ℕ) (maxA : ℚ) (fuel : ℕ) :
    Except PyErr (Option ℚ) :=
  if N ≤ 0 then .error .valueErr
  else if Pr ≤ 0 then .ok (some 0)
  else if 1 ≤ Pr then .ok none
  else
    match bracketLoop N.toNat Pr maxA fuel 1 with
    | none => .ok (some maxA)
    | some high => afterBracket N.toNat Pr tol maxIter maxA high

/-! ### Semantics of the checked arithmetic -/

lemma chk_ok {x y : ℚ} (h : chk x = .ok y) : y = x := by
  unfold chk at h
  split at h
  · exact (Except.ok.inj h).symm
  · exact absurd h (by simp)

lemma chk_err {x : ℚ} {e : PyErr} (h : chk x = .error e) : e = .overflow := by
  unfold chk at h
  split at h
  · exact absurd h (by simp)
  · exact (Except.error.inj h).symm

lemma chk_ok_of_le {x y : ℚ} (hy0 : 0 ≤ y) (hyx : y ≤ x) {v : ℚ} (h : chk x = .ok v) :
    chk y = .ok y := by
  unfold chk at h ⊢
  split at h
  · rename_i hx
    have hpos : (0 : ℚ) < floatMax := lt_of_le_of_lt hy0 (lt_of_le_of_lt hyx hx.2)
    rw [if_pos ⟨lt_of_lt_of_le (neg_neg_iff_pos.mpr hpos) hy0, lt_of_le_of_lt hyx hx.2⟩]
  · exact absurd h (by simp)

lemma factorial_cast_ne_zero (k : ℕ) : ((Nat.factorial k : ℚ)) ≠ 0 :=
  Nat.cast_ne_zero.mpr (Nat.factorial_ne_zero k)

lemma pyDiv_ok {x y v : ℚ} (h : pyDiv x y = .ok v) : v = x / y := by
  unfold pyDiv at h
  split at h
  · exact absurd h (by simp)
  · exact (Except.ok.inj h).symm

lemma pyDiv_err {x y : ℚ} {e : PyErr} (h : pyDiv x y = .error e) : e = .zeroDiv ∧ y = 0 := by
  unfold pyDiv at h
  split at h
  · exact ⟨(Except.error.inj h).symm, by assumption⟩
  · exact absurd h (by simp)

lemma pyDiv_of_ne {x y : ℚ} (h : y ≠ 0) : pyDiv x y = .ok (x / y) := by
  unfold pyDiv
  rw [if_neg h]

/-! ### Semantics of the direct evaluation in the try block -/

lemma termE_ok {A : ℚ} {k : ℕ} {t : ℚ} (h : termE A k = .ok t) :
    t = A ^ k / (Nat.factorial k : ℚ) := by
  unfold termE at h
  cases hp : chk (A ^ k) with
  | error e => rw [hp] at h; exact absurd h (by simp)
  | ok p =>
    rw [hp] at h
    cases hf : chk ((Nat.factorial k : ℚ)) with
    | error e => rw [hf] at h; exact absurd h (by simp)
    | ok f => rw [hf] at h; rw [pyDiv_ok h, chk_ok hp, chk_ok hf]

lemma termE_err {A : ℚ} {k : ℕ} {e : PyErr} (h : termE A k = .error e) : e = .overflow := by
  unfold termE at h
  cases hp : chk (A ^ k) with
  | error e2 => rw [hp] at h; rw [← Except.error.inj h]; exact chk_err hp
  | ok p =>
    rw [hp] at h
    cases hf : chk ((Nat.factorial k : ℚ)) with
    | error e2 => rw [hf] at h; rw [← Except.error.inj h]; exact chk_err hf
    | ok f =>
      rw [hf] at h
      rcases pyDiv_err h with ⟨_, hf0⟩
      rw [chk_ok hf] at hf0
      exact absurd hf0 (factorial_cast_ne_zero k)

lemma termE_ok_mono {A1 A2 : ℚ} (h0 : 0 ≤ A1) (h12 : A1 ≤ A2) {k : ℕ} {t : ℚ}
    (h : termE A2 k = .ok t) : termE A1 k = .ok (A1 ^ k / (Nat.factorial k : ℚ)) := by
  unfold termE at h ⊢
  cases hp : chk (A2 ^ k) with
  | error e => rw [hp] at h; exact absurd h (by simp)
  | ok p =>
    rw [hp] at h
    have hp1 : chk (A1 ^ k) = .ok (A1 ^ k) :=
      chk_ok_of_le (pow_nonneg h0 k) (pow_le_pow_left₀ h0 h12 k) hp
    rw [hp1]
    cases hf : chk ((Nat.factorial k : ℚ)) with
    | error e => rw [hf] at h; exact absurd h (by simp)
    | ok f =>
      have hfv : f = (Nat.factorial k : ℚ) := chk_ok hf
      subst hfv
      exact pyDiv_of_ne (factorial_cast_ne_zero k)

lemma sumE_ok {A : ℚ} : ∀ {n : ℕ} {s : ℚ}, sumE A n = .ok s →
    s = ∑ k in Finset.range n, A ^ k / (Nat.factorial k : ℚ) := by
  intro n
  induction n with
  | zero => intro s h; rw [← Except.ok.inj h]; simp [sumE]
  | succ n ih =>
    intro s h
    unfold sumE at h
    cases hs : sumE A n with
    | error e => rw [hs] at h; exact absurd h (by simp)
    | ok s1 =>
      rw [hs] at h
      cases ht : termE A n with
      | error e => rw [ht] at h; exact absurd h (by simp)
      | ok t =>
        rw [ht] at h
        rw [← Except.ok.inj h, Finset.sum_range_succ, ← ih hs, ← termE_ok ht]

lemma sumE_succ_ok {A : ℚ} {n : ℕ} {s : ℚ} (h : sumE A (n + 1) = .ok s) :
    (∃ s1, sumE A n = .ok s1) ∧ (∃ t, termE A n = .ok t) := by
  unfold sumE at h
  cases hs : sumE A n with
  | error e => rw [hs] at h; exact absurd h (by simp)
  | ok s1 =>
    rw [hs] at h
    cases ht : termE A n with
    | error e => rw [ht] at h; exact absurd h (by simp)
    | ok t => exact ⟨⟨s1, rfl⟩, ⟨t, rfl⟩⟩

lemma sumE_err {A : ℚ} : ∀ {n : ℕ} {e : PyErr}, sumE A n = .error e → e = .overflow := by
  intro n
  induction n with
  | zero => intro e h; exact absurd h (by simp [sumE])
  | succ n ih =>
    intro e h
    unfold sumE at h
    cases hs : sumE A n with
    | error e2 => rw [hs] at h; rw [← Except.error.inj h]; exact ih hs
    | ok s1 =>
      rw [hs] at h
      cases ht : termE A n with
      | error e2 => rw [ht] at h; rw [← Except.error.inj h]; exact termE_err ht
      | ok t => rw [ht] at h; exact absurd h (by simp)

lemma sumE_ok_mono {A1 A2 : ℚ} (h0 : 0 ≤ A1) (h12 : A1 ≤ A2) :
    ∀ {n : ℕ} {s : ℚ}, sumE A2 n = .ok s →
      sumE A1 n = .ok (∑ k in Finset.range n, A1 ^ k / (Nat.factorial k : ℚ)) := by
  intro n
  induction n with
  | zero => intro s _; simp [sumE]
  | succ n ih =>
    intro s h
    rcases sumE_succ_ok h with ⟨⟨s1, hs1⟩, ⟨t, ht⟩⟩
    unfold sumE
    rw [ih hs1, termE_ok_mono h0 h12 ht, Finset.sum_range_succ]

lemma sumE_ok_prefix {A : ℚ} {m : ℕ} : ∀ {n : ℕ}, m ≤ n → ∀ {s : ℚ}, sumE A n = .ok s →
    ∃ s1, sumE A m = .ok s1 := by
  intro n
  induction n with
  | zero => intro hm s h; exact ⟨s, by rwa [Nat.le_zero.mp hm]⟩
  | succ n ih =>
    intro hm s h
    rcases Nat.lt_or_ge m (n + 1) with hlt | hge
    · rcases sumE_succ_ok h with ⟨⟨s1, hs1⟩, _⟩
      exact ih (Nat.lt_succ_iff.mp hlt) hs1
    · exact ⟨s, by rwa [Nat.le_antisymm hm hge]⟩

lemma sumE_ok_term {A : ℚ} {n k : ℕ} (hk : k < n) {s : ℚ} (h : sumE A n = .ok s) :
    ∃ t, termE A k = .ok t := by
  rcases sumE_ok_prefix (Nat.succ_le_of_lt hk) h with ⟨s1, hs1⟩
  exact (sumE_succ_ok hs1).2

/-- For `A ≥ 0` the denominator of the direct evaluation is at least the
`k = 0` term, which is `1`. -/
lemma one_le_sumD {A : ℚ} (h0 : 0 ≤ A) (n : ℕ) :
    1 ≤ ∑ k in Finset.range (n + 1), A ^ k / (Nat.factorial k : ℚ) := by
  have h := Finset.single_le_sum
    (fun (i : ℕ) (_ : i ∈ Finset.range (n + 1)) => div_nonneg (pow_nonneg h0 i)
      (by positivity : (0 : ℚ) ≤ (Nat.factorial i : ℚ)))
    (Finset.mem_range.mpr (Nat.succ_pos n))
  simpa using h

lemma sumD_ne_zero {A : ℚ} (h0 : 0 ≤ A) (n : ℕ) :
    (∑ k in Finset.range (n + 1), A ^ k / (Nat.factorial k : ℚ)) ≠ 0 :=
  ne_of_gt (lt_of_lt_of_le one_pos (one_le_sumD h0 n))

/-! ### Semantics of the whole try block -/

lemma erlang_bTry_ok {N : ℕ} {A v : ℚ} (h : erlang_bTry N A = .ok v) :
    v = erlangB_spec N A := by
  unfold erlang_bTry at h
  cases ht : termE A N with
  | error e => rw [ht] at h; exact absurd h (by simp)
  | ok num =>
    rw [ht] at h
    cases hs : sumE A (N + 1) with
    | error e => rw [hs] at h; exact absurd h (by simp)
    | ok den =>
      rw [hs] at h
      rw [pyDiv_ok h, termE_ok ht, sumE_ok hs]
      rfl

lemma erlang_bTry_err_overflow {N : ℕ} {A : ℚ} (h0 : 0 ≤ A) {e : PyErr}
    (h : erlang_bTry N A = .error e) : e = .overflow := by
  unfold erlang_bTry at h
  cases ht : termE A N with
  | error e2 => rw [ht] at h; rw [← Except.error.inj h]; exact termE_err ht
  | ok num =>
    rw [ht] at h
    cases hs : sumE A (N + 1) with
    | error e2 => rw [hs] at h; rw [← Except.error.inj h]; exact sumE_err hs
    | ok den =>
      rw [hs] at h
      rcases pyDiv_err h with ⟨_, hden⟩
      rw [sumE_ok hs] at hden
      exact absurd hden (sumD_ne_zero h0 N)

lemma erlang_bTry_ok_mono_A {N : ℕ} {A1 A2 : ℚ} (h0 : 0 ≤ A1) (h12 : A1 ≤ A2) {v : ℚ}
    (h : erlang_bTry N A2 = .ok v) : erlang_bTry N A1 = .ok (erlangB_spec N A1) := by
  unfold erlang_bTry at h ⊢
  cases ht : termE A2 N with
  | error e => rw [ht] at h; exact absurd h (by simp)
  | ok num =>
    rw [ht] at h
    cases hs : sumE A2 (N + 1) with
    | error e => rw [hs] at h; exact absurd h (by simp)
    | ok den =>
      rw [termE_ok_mono h0 h12 ht, sumE_ok_mono h0 h12 hs]
      show pyDiv (A1 ^ N / (Nat.factorial N : ℚ))
          (∑ k in Finset.range (N + 1), A1 ^ k / (Nat.factorial k : ℚ)) =
        .ok (erlangB_spec N A1)
      rw [pyDiv_of_ne (sumD_ne_zero h0 N)]
      rfl

lemma erlang_bTry_ok_mono_N {A : ℚ} (h0 : 0 ≤ A) {N1 N2 : ℕ} (h12 : N1 ≤ N2) {v : ℚ}
    (h : erlang_bTry N2 A = .ok v) : erlang_bTry N1 A = .ok (erlangB_spec N1 A) := by
  unfold erlang_bTry at h ⊢
  cases ht : termE A N2 with
  | error e => rw [ht] at h; exact absurd h (by simp)
  | ok num =>
    rw [ht] at h
    cases hs : sumE A (N2 + 1) with
    | error e => rw [hs] at h; exact absurd h (by simp)
    | ok den =>
      rcases sumE_ok_term (Nat.lt_succ_of_le h12) hs with ⟨t1, ht1⟩
      rcases sumE_ok_prefix (Nat.succ_le_succ h12) hs with ⟨s1, hs1⟩
      rw [ht1, hs1, termE_ok ht1, sumE_ok hs1]
      show pyDiv (A ^ N1 / (Nat.factorial N1 : ℚ))
          (∑ k in Finset.range (N1 + 1), A ^ k / (Nat.factorial k : ℚ)) =
        .ok (erlangB_spec N1 A)
      rw [pyDiv_of_ne (sumD_ne_zero h0 N1)]
      rfl

/-! ### Value and exception semantics of erlang_b -/

lemma erlang_b_ok_val {N : ℕ} (hN : N ≠ 0) {A v : ℚ} (h : erlang_bTry N A = .ok v) :
    erlang_b N A = erlangB_spec N A := by
  unfold erlang_b
  rw [if_neg hN, h]
  exact erlang_bTry_ok h

lemma erlang_b_err_val {N : ℕ} (hN : N ≠ 0) {A : ℚ} {e : PyErr}
    (h : erlang_bTry N A = .error e) : erlang_b N A = 1 := by
  unfold erlang_b
  rw [if_neg hN, h]

lemma erlang_bRun_ok {N : ℕ} {A : ℚ} (h0 : 0 ≤ A) :
    erlang_bRun N A = .ok (erlang_b N A) := by
  unfold erlang_bRun erlang_b
  by_cases hN : N = 0
  · rw [if_pos hN, if_pos hN]
  · rw [if_neg hN, if_neg hN]
    cases h : erlang_bTry N A with
    | ok v => rfl
    | error e =>
      have he := erlang_bTry_err_overflow h0 h
      subst he
      rfl

/-! ### Exact properties of the Erlang B closed form -/

lemma sumD_pos {A : ℚ} (h0 : 0 ≤ A) (n : ℕ) :
    0 < ∑ k in Finset.range (n + 1), A ^ k / (Nat.factorial k : ℚ) :=
  lt_of_lt_of_le one_pos (one_le_sumD h0 n)

lemma erlangB_spec_nonneg {N : ℕ} {A : ℚ} (h0 : 0 ≤ A) : 0 ≤ erlangB_spec N A := by
  unfold erlangB_spec
  exact div_nonneg (div_nonneg (pow_nonneg h0 N) (by positivity)) (le_of_lt (sumD_pos h0 N))

lemma erlangB_spec_le_one {N : ℕ} {A : ℚ} (h0 : 0 ≤ A) : erlangB_spec N A ≤ 1 := by
  unfold erlangB_spec
  rw [div_le_one (sumD_pos h0 N)]
  exact Finset.single_le_sum
    (fun (i : ℕ) (_ : i ∈ Finset.range (N + 1)) => div_nonneg (pow_nonneg h0 i)
      (by positivity : (0 : ℚ) ≤ (Nat.factorial i : ℚ)))
    (Finset.mem_range.mpr (Nat.lt_succ_self N))

lemma pow_cross_mul {A1 A2 : ℚ} (h0 : 0 ≤ A1) (h12 : A1 ≤ A2) {k N : ℕ} (hk : k ≤ N) :
    A1 ^ N * A2 ^ k ≤ A2 ^ N * A1 ^ k := by
  obtain ⟨d, rfl⟩ : ∃ d, N = k + d := ⟨N - k, (Nat.add_sub_cancel' hk).symm⟩
  have h02 : 0 ≤ A2 := le_trans h0 h12
  calc A1 ^ (k + d) * A2 ^ k = A1 ^ k * A2 ^ k * A1 ^ d := by rw [pow_add]; ring
    _ ≤ A1 ^ k * A2 ^ k * A2 ^ d := by
        apply mul_le_mul_of_nonneg_left (pow_le_pow_left₀ h0 h12 d)
        positivity
    _ = A2 ^ (k + d) * A1 ^ k := by rw [pow_add]; ring

/-- The closed form is non-decreasing in the offered traffic `A`. -/
lemma erlangB_spec_mono_A {N : ℕ} {A1 A2 : ℚ} (h0 : 0 ≤ A1) (h12 : A1 ≤ A2) :
    erlangB_spec N A1 ≤ erlangB_spec N A2 := by
  have h02 : 0 ≤ A2 := le_trans h0 h12
  unfold erlangB_spec
  rw [div_le_div_iff₀ (sumD_pos h0 N) (sumD_pos h02 N), Finset.mul_sum, Finset.mul_sum]
  apply Finset.sum_le_sum
  intro k hk
  have hkN : k ≤ N := Nat.lt_succ_iff.mp (Finset.mem_range.mp hk)
  rw [div_mul_div_comm, div_mul_div_comm]
  have hd : (0 : ℚ) < (Nat.factorial N : ℚ) * (Nat.factorial k : ℚ) := by positivity
  rw [div_le_div_iff₀ hd hd]
  exact mul_le_mul_of_nonneg_right (pow_cross_mul h0 h12 hkN) (le_of_lt hd)

/-- Key step for anti-monotonicity in `N`:
`A * S N ≤ (N + 1) * S (N + 1)` where `S n = Σ_{k=0..n} A^k / k!`. -/
lemma mul_sumD_le {N : ℕ} {A : ℚ} (h0 : 0 ≤ A) :
    A * ∑ k in Finset.range (N + 1), A ^ k / (Nat.factorial k : ℚ) ≤
      ((N : ℚ) + 1) * ∑ k in Finset.range (N + 2), A ^ k / (Nat.factorial k : ℚ) := by
  have expand1 : A * ∑ k in Finset.range (N + 1), A ^ k / (Nat.factorial k : ℚ) =
      ∑ k in Finset.range (N + 1), A ^ (k + 1) / (Nat.factorial k : ℚ) := by
    rw [Finset.mul_sum]
    refine Finset.sum_congr rfl fun k _ => ?_
    rw [pow_succ]
    ring
  have expand2 : ((N : ℚ) + 1) * ∑ k in Finset.range (N + 2), A ^ k / (Nat.factorial k : ℚ) =
      (∑ k in Finset.range (N + 1),
        ((N : ℚ) + 1) * (A ^ (k + 1) / (Nat.factorial (k + 1) : ℚ))) +
      ((N : ℚ) + 1) * (A ^ 0 / (Nat.factorial 0 : ℚ)) := by
    rw [Finset.sum_range_succ' (fun k => A ^ k / (Nat.factorial k : ℚ)) (N + 1), mul_add,
      Finset.mul_sum]
  rw [expand1, expand2]
  refine le_trans (Finset.sum_le_sum ?_) (le_add_of_nonneg_right (by positivity))
  intro k hk
  have hkN : k ≤ N := Nat.lt_succ_iff.mp (Finset.mem_range.mp hk)
  have hf1 : ((Nat.factorial (k + 1) : ℚ)) = ((k : ℚ) + 1) * (Nat.factorial k : ℚ) := by
    rw [Nat.factorial_succ]
    push_cast
    ring
  rw [mul_div_assoc', div_le_div_iff₀ (by positivity) (by rw [hf1]; positivity), hf1]
  have hcast : ((k : ℚ) + 1) ≤ ((N : ℚ) + 1) := by
    have := (Nat.cast_le (α := ℚ)).mpr hkN
    linarith
  calc A ^ (k + 1) * (((k : ℚ) + 1) * (Nat.factorial k : ℚ))
      = ((k : ℚ) + 1) * (A ^ (k + 1) * (Nat.factorial k : ℚ)) := by ring
    _ ≤ ((N : ℚ) + 1) * (A ^ (k + 1) * (Nat.factorial k : ℚ)) :=
        mul_le_mul_of_nonneg_right hcast (by positivity)
    _ = ((N : ℚ) + 1) * A ^ (k + 1) * (Nat.factorial k : ℚ) := by ring

/-- The closed form is non-increasing in the server count `N` (single step). -/
lemma erlangB_spec_anti_N_succ {N : ℕ} {A : ℚ} (hA : 0 < A) :
    erlangB_spec (N + 1) A ≤ erlangB_spec N A := by
  have h0 : 0 ≤ A := le_of_lt hA
  unfold erlangB_spec
  rw [div_le_div_iff₀ (sumD_pos h0 (N + 1)) (sumD_pos h0 N)]
  have hfac : ((Nat.factorial (N + 1) : ℚ)) = ((N : ℚ) + 1) * (Nat.factorial N : ℚ) := by
    rw [Nat.factorial_succ]
    push_cast
    ring
  have hc : ((N : ℚ) + 1) ≠ 0 := by positivity
  have hf0 : ((Nat.factorial N : ℚ)) ≠ 0 := factorial_cast_ne_zero N
  calc A ^ (N + 1) / (Nat.factorial (N + 1) : ℚ) *
        ∑ k in Finset.range (N + 1), A ^ k / (Nat.factorial k : ℚ)
      = A ^ N / (Nat.factorial (N + 1) : ℚ) *
        (A * ∑ k in Finset.range (N + 1), A ^ k / (Nat.factorial k : ℚ)) := by
        rw [pow_succ]
        ring
    _ ≤ A ^ N / (Nat.factorial (N + 1) : ℚ) *
        (((N : ℚ) + 1) * ∑ k in Finset.range (N + 2), A ^ k / (Nat.factorial k : ℚ)) := by
        apply mul_le_mul_of_nonneg_left (mul_sumD_le h0)
        positivity
    _ = A ^ N / (Nat.factorial N : ℚ) *
        ∑ k in Finset.range (N + 1 + 1), A ^ k / (Nat.factorial k : ℚ) := by
        rw [hfac]
        field_simp
        ring

/-- The closed form is non-increasing in the server count `N`. -/
lemma erlangB_spec_anti_N {A : ℚ} (hA : 0 < A) {N1 N2 : ℕ} (h12 : N1 ≤ N2) :
    erlangB_spec N2 A ≤ erlangB_spec N1 A := by
  induction N2, h12 using Nat.le_induction with
  | base => exact le_refl _
  | succ n hn ih => exact le_trans (erlangB_spec_anti_N_succ hA) ih

/-! ### Bounds and monotonicity of erlang_b itself -/

lemma erlang_b_zero_eq (A : ℚ) : erlang_b 0 A = if 0 < A then 1 else 0 := by
  unfold erlang_b
  rw [if_pos rfl]

lemma erlang_b_nonneg {N : ℕ} {A : ℚ} (h0 : 0 ≤ A) : 0 ≤ erlang_b N A := by
  by_cases hN : N = 0
  · subst hN
    rw [erlang_b_zero_eq]
    split <;> norm_num
  · cases h : erlang_bTry N A with
    | ok v => rw [erlang_b_ok_val hN h]; exact erlangB_spec_nonneg h0
    | error e => rw [erlang_b_err_val hN h]; norm_num

lemma erlang_b_le_one {N : ℕ} {A : ℚ} (h0 : 0 ≤ A) : erlang_b N A ≤ 1 := by
  by_cases hN : N = 0
  · subst hN
    rw [erlang_b_zero_eq]
    split <;> norm_num
  · cases h : erlang_bTry N A with
    | ok v => rw [erlang_b_ok_val hN h]; exact erlangB_spec_le_one h0
    | error e => rw [erlang_b_err_val hN h]

/-- `erlang_b` is non-decreasing in `A` for a fixed positive server count,
including across the overflow-sentinel region. -/
lemma erlang_b_mono_A {N : ℕ} (hN : N ≠ 0) {A1 A2 : ℚ} (h0 : 0 ≤ A1) (h12 : A1 ≤ A2) :
    erlang_b N A1 ≤ erlang_b N A2 := by
  cases h2 : erlang_bTry N A2 with
  | ok v =>
    rw [erlang_b_ok_val hN (erlang_bTry_ok_mono_A h0 h12 h2), erlang_b_ok_val hN h2]
    exact erlangB_spec_mono_A h0 h12
  | error e =>
    rw [erlang_b_err_val hN h2]
    exact erlang_b_le_one h0

/-- `erlang_b` is non-increasing in `N` whenever the evaluation at the larger
server count does not overflow. -/
lemma erlang_b_anti_N {A : ℚ} (hA : 0 < A) {N1 N2 : ℕ} (h12 : N1 ≤ N2) {v : ℚ}
    (hok : erlang_bTry N2 A = .ok v) : erlang_b N2 A ≤ erlang_b N1 A := by
  have h0 : 0 ≤ A := le_of_lt hA
  by_cases h20 : N2 = 0
  · subst h20
    rw [Nat.le_zero.mp h12]
  · rw [erlang_b_ok_val h20 hok]
    by_cases h10 : N1 = 0
    · subst h10
      rw [erlang_b_zero_eq, if_pos hA]
      exact erlangB_spec_le_one h0
    · rw [erlang_b_ok_val h10 (erlang_bTry_ok_mono_N h0 h12 hok)]
      exact erlangB_spec_anti_N hA h12

/-! ### The linear scan of erlang_b_inverse -/

lemma scanFrom_not_found {A Pr : ℚ} {maxC : ℕ} :
    ∀ {fuel start : ℕ}, (∀ k, start ≤ k → k < start + fuel → ¬(erlang_b k A ≤ Pr)) →
      scanFrom A Pr maxC start fuel = maxC := by
  intro fuel
  induction fuel with
  | zero => intro start _; rfl
  | succ fuel ih =>
    intro start h
    unfold scanFrom
    rw [if_neg (h start (le_refl _) (by omega))]
    exact ih fun k hk1 hk2 => h k (by omega) (by omega)

lemma scanFrom_found {A Pr : ℚ} (maxC : ℕ) :
    ∀ (fuel start N : ℕ), start ≤ N → N < start + fuel → erlang_b N A ≤ Pr →
      start ≤ scanFrom A Pr maxC start fuel ∧ scanFrom A Pr maxC start fuel ≤ N ∧
        erlang_b (scanFrom A Pr maxC start fuel) A ≤ Pr := by
  intro fuel
  induction fuel with
  | zero => intro start N h1 h2 _; omega
  | succ fuel ih =>
    intro start N h1 h2 h3
    unfold scanFrom
    by_cases hs : erlang_b start A ≤ Pr
    · rw [if_pos hs]
      exact ⟨le_refl _, h1, hs⟩
    · rw [if_neg hs]
      have hne : N ≠ start := fun he => hs (he ▸ h3)
      have hrec := ih (start + 1) N (by omega) (by omega) h3
      exact ⟨by omega, hrec.2.1, hrec.2.2⟩

/-! ### The bracketing and bisection loops of erlang_a_from_pr -/

lemma erlang_bRun_err {N : ℕ} {A : ℚ} {e : PyErr} (h : erlang_bRun N A = .error e) :
    e = .zeroDiv := by
  unfold erlang_bRun at h
  split at h
  · exact absurd h (by simp)
  · cases ht : erlang_bTry N A with
    | ok v => rw [ht] at h; exact absurd h (by simp)
    | error e2 =>
      rw [ht] at h
      cases e2 with
      | overflow => exact absurd h (by simp)
      | valueErr => exact absurd h (by simp)
      | zeroDiv => exact (Except.error.inj h).symm

lemma bracketLoop_some (N : ℕ) (Pr maxA : ℚ) :
    ∀ (fuel : ℕ) (high : ℚ), 0 ≤ high →
      ∃ h2, bracketLoop N Pr maxA fuel high = some h2 ∧ 0 ≤ h2 := by
  intro fuel
  induction fuel with
  | zero => intro high h; exact ⟨high, rfl, h⟩
  | succ fuel ih =>
    intro high h
    unfold bracketLoop
    rw [erlang_bRun_ok h]
    show ∃ h2, (if erlang_b N high < Pr ∧ high < maxA then
        bracketLoop N Pr maxA fuel (2 * high) else some high) = some h2 ∧ 0 ≤ h2
    by_cases hc : erlang_b N high < Pr ∧ high < maxA
    · rw [if_pos hc]
      exact ih (2 * high) (by linarith)
    · rw [if_neg hc]
      exact ⟨high, rfl, h⟩

lemma bisectLoop_ok (N : ℕ) (Pr tol : ℚ) :
    ∀ (it : ℕ) (low high : ℚ), 0 ≤ low → 0 ≤ high →
      ∃ a, bisectLoop N Pr tol it low high = .ok a ∧ 0 ≤ a := by
  intro it
  induction it with
  | zero => intro low high h1 h2; exact ⟨(low + high) / 2, rfl, by positivity⟩
  | succ it ih =>
    intro low high h1 h2
    have hm : 0 ≤ (low + high) / 2 := by positivity
    unfold bisectLoop
    rw [erlang_bRun_ok hm]
    show ∃ a, (if |erlang_b N ((low + high) / 2) - Pr| ≤ tol then Except.ok ((low + high) / 2)
        else if erlang_b N ((low + high) / 2) < Pr then
          bisectLoop N Pr tol it ((low + high) / 2) high
        else bisectLoop N Pr tol it low ((low + high) / 2)) = .ok a ∧ 0 ≤ a
    by_cases hc1 : |erlang_b N ((low + high) / 2) - Pr| ≤ tol
    · rw [if_pos hc1]
      exact ⟨(low + high) / 2, rfl, hm⟩
    · rw [if_neg hc1]
      by_cases hc2 : erlang_b N ((low + high) / 2) < Pr
      · rw [if_pos hc2]
        exact ih ((low + high) / 2) high hm h2
      · rw [if_neg hc2]
        exact ih low ((low + high) / 2) h1 hm

lemma bisectLoop_err {N : ℕ} {Pr tol : ℚ} :
    ∀ {it : ℕ} {low high : ℚ} {e : PyErr}, bisectLoop N Pr tol it low high = .error e →
      e = .zeroDiv := by
  intro it
  induction it with
  | zero => intro low high e h; exact absurd h (by simp [bisectLoop])
  | succ it ih =>
    intro low high e h
    unfold bisectLoop at h
    cases hrun : erlang_bRun N ((low + high) / 2) with
    | error e2 => rw [hrun] at h; rw [← Except.error.inj h]; exact erlang_bRun_err hrun
    | ok val =>
      rw [hrun] at h
      have h2 : (if |val - Pr| ≤ tol then Except.ok ((low + high) / 2)
          else if val < Pr then bisectLoop N Pr tol it ((low + high) / 2) high
          else bisectLoop N Pr tol it low ((low + high) / 2)) = Except.error e := h
      split at h2
      · exact absurd h2 (by simp)
      · split at h2
        · exact ih h2
        · exact ih h2

/-- After a bracketing phase ending at a non-negative `high`, the rest of
the inversion returns a finite non-negative value. -/
lemma afterBracket_ok {N : ℕ} {Pr tol maxA high : ℚ} {maxIter : ℕ}
    (hmaxA : 0 ≤ maxA) (hhigh : 0 ≤ high) :
    ∃ a, afterBracket N Pr tol maxIter maxA high = .ok (some a) ∧ 0 ≤ a := by
  unfold afterBracket
  rw [erlang_bRun_ok hhigh]
  show ∃ a, (if erlang_b N high < Pr then Except.ok (some maxA)
      else match bisectLoop N Pr tol maxIter 0 high with
        | .error e => .error e
        | .ok a => .ok (some a)) = .ok (some a) ∧ 0 ≤ a
  by_cases hv : erlang_b N high < Pr
  · rw [if_pos hv]
    exact ⟨maxA, rfl, hmaxA⟩
  · rw [if_neg hv]
    rcases bisectLoop_ok N Pr tol maxIter 0 high (le_refl 0) hhigh with ⟨a, hbis, ha⟩
    rw [hbis]
    exact ⟨a, rfl, ha⟩

/-- For `1 ≤ N` and `0 < Pr < 1` the traffic inversion returns a finite
non-negative value, and no exception ever escapes `erlang_b` inside the
bracketing loop (the `except` fallback is unreachable). -/
lemma erlang_a_ok_nonneg {N : ℤ} {Pr tol maxA : ℚ} {maxIter fuel : ℕ}
    (hN : 1 ≤ N) (hPr0 : 0 < Pr) (hPr1 : Pr < 1) (hmaxA : 0 ≤ maxA) :
    bracketLoop N.toNat Pr maxA fuel 1 ≠ none ∧
      ∃ a, erlang_a_from_pr N Pr tol maxIter maxA fuel = .ok (some a) ∧ 0 ≤ a := by
  rcases bracketLoop_some N.toNat Pr maxA fuel 1 (by norm_num) with ⟨h2, hbr, hh2⟩
  refine ⟨by rw [hbr]; simp, ?_⟩
  unfold erlang_a_from_pr
  rw [if_neg (by omega : ¬ N ≤ 0), if_neg (by linarith : ¬ Pr ≤ 0),
    if_neg (by linarith : ¬ (1 : ℚ) ≤ Pr), hbr]
  show ∃ a, afterBracket N.toNat Pr tol maxIter maxA h2 = .ok (some a) ∧ 0 ≤ a
  exact afterBracket_ok hmaxA hh2

/-- A call with a positive server count never raises `ValueError`. -/
lemma erlang_a_no_valueErr {N : ℤ} (hN : 1 ≤ N) (Pr tol : ℚ) (maxIter : ℕ) (maxA : ℚ)
    (fuel : ℕ) : erlang_a_from_pr N Pr tol maxIter maxA fuel ≠ .error .valueErr := by
  intro h
  unfold erlang_a_from_pr at h
  rw [if_neg (by omega : ¬ N ≤ 0)] at h
  by_cases hp0 : Pr ≤ 0
  · rw [if_pos hp0] at h
    exact absurd h (by simp)
  rw [if_neg hp0] at h
  by_cases hp1 : (1 : ℚ) ≤ Pr
  · rw [if_pos hp1] at h
    exact absurd h (by simp)
  rw [if_neg hp1] at h
  cases hbr : bracketLoop N.toNat Pr maxA fuel 1 with
  | none =>
    rw [hbr] at h
    exact absurd h (by simp)
  | some high =>
    rw [hbr] at h
    have h1 : afterBracket N.toNat Pr tol maxIter maxA high = .error .valueErr := h
    unfold afterBracket at h1
    cases hrun : erlang_bRun N.toNat high with
    | error e =>
      rw [hrun] at h1
      have he : e = PyErr.valueErr := Except.error.inj h1
      rw [erlang_bRun_err hrun] at he
      exact PyErr.noConfusion he
    | ok v =>
      rw [hrun] at h1
      have h3 : (if v < Pr then Except.ok (some maxA)
          else match bisectLoop N.toNat Pr tol maxIter 0 high with
            | .error e => Except.error e
            | .ok a => Except.ok (some a)) = Except.error PyErr.valueErr := h1
      split at h3
      · exact absurd h3 (by simp)
      cases hbis : bisectLoop N.toNat Pr tol maxIter 0 high with
      | error e =>
        rw [hbis] at h3
        have he : e = PyErr.valueErr := Except.error.inj h3
        rw [bisectLoop_err hbis] at he
        exact PyErr.noConfusion he
      | ok a =>
        rw [hbis] at h3
        exact absurd h3 (by simp)

/-! ### The claims -/

/-- C1: for every `N ≥ 1` and `A ≥ 0` for which the direct evaluation does
not overflow, `erlang_b N A` equals the Erlang B closed form
`(A^N / N!) / Σ_{k=0..N} (A^k / k!)`. -/
theorem c1_closed_form (N : ℕ) (A v : ℚ) (hN : 1 ≤ N) (h0 : 0 ≤ A)
    (hok : erlang_bTry N A = .ok v) : erlang_b N A = erlangB_spec N A :=
  erlang_b_ok_val (by omega) hok

theorem c1_witness :
    1 ≤ 2 ∧ (0 : ℚ) ≤ 1 ∧ erlang_bTry 2 1 = .ok (1/5) ∧ erlang_b 2 1 = erlangB_spec 2 1 :=
  ⟨by norm_num, by norm_num, by decide!,
    c1_closed_form 2 1 (1/5) (by norm_num) (by norm_num) (by decide!)⟩

/-- C2 fails as stated: at `A = 1` the blocking probability rises from
`N = 170` to `N = 171`, because `math.factorial 171` exceeds the float
range, so the handler returns the sentinel 1.0 while `erlang_b 170 1` is a
tiny positive value. -/
theorem c2_counterexample : ¬ (erlang_b 171 1 ≤ erlang_b 170 1) := by decide!

/-- C2 amended: `erlang_b` is non-decreasing in `A` for every fixed
`N ≥ 1` over `A ≥ 0`; it is non-increasing in `N` for fixed `A > 0` when
restricted to server counts whose direct evaluation does not overflow. -/
theorem c2_monotone_amended :
    (∀ (N : ℕ) (A1 A2 : ℚ), 1 ≤ N → 0 ≤ A1 → A1 ≤ A2 →
      erlang_b N A1 ≤ erlang_b N A2) ∧
    (∀ (A : ℚ) (N1 N2 : ℕ) (v : ℚ), 0 < A → N1 ≤ N2 → erlang_bTry N2 A = .ok v →
      erlang_b N2 A ≤ erlang_b N1 A) :=
  ⟨fun _ A1 A2 hN h0 h12 => erlang_b_mono_A (by omega) h0 h12,
   fun _ _ _ _ hA h12 hok => erlang_b_anti_N hA h12 hok⟩

theorem c2_witness : erlang_b 1 1 ≤ erlang_b 1 2 ∧ erlang_b 2 1 ≤ erlang_b 1 1 :=
  ⟨c2_monotone_amended.1 1 1 2 (by norm_num) (by norm_num) (by norm_num),
   c2_monotone_amended.2 1 1 2 (1/5) (by norm_num) (by norm_num) (by decide!)⟩

/-- C3: for `A > 0` and `0 < targetPr < 1`, `erlang_b_inverse` returns the
smallest `N` in `1..maxServers` whose blocking probability is at most
`targetPr`, and returns `maxServers` when no such `N` exists in range. -/
theorem c3_inverse_minimal (A Pr : ℚ) (maxC : ℕ) (hA : 0 < A)
    (h0 : 0 < Pr) (h1 : Pr < 1) :
    (∀ N, 1 ≤ N → N ≤ maxC → erlang_b N A ≤ Pr →
      (1 ≤ erlang_b_inverse A Pr maxC ∧ erlang_b_inverse A Pr maxC ≤ N ∧
        erlang_b (erlang_b_inverse A Pr maxC) A ≤ Pr)) ∧
    ((∀ N, 1 ≤ N → N ≤ maxC → ¬(erlang_b N A ≤ Pr)) →
      erlang_b_inverse A Pr maxC = maxC) := by
  have hg : erlang_b_inverse A Pr maxC = scanFrom A Pr maxC 1 maxC := by
    unfold erlang_b_inverse
    rw [if_neg (by linarith), if_neg (by linarith)]
  constructor
  · intro N hN1 hNmax hsat
    rw [hg]
    have hf := scanFrom_found maxC maxC 1 N hN1 (by omega) hsat
    exact ⟨hf.1, hf.2.1, hf.2.2⟩
  · intro hnone
    rw [hg]
    exact scanFrom_not_found fun k hk1 hk2 => hnone k hk1 (by omega)

theorem c3_witness :
    1 ≤ erlang_b_inverse 5 (1/100) 20 ∧ erlang_b_inverse 5 (1/100) 20 ≤ 11 ∧
      erlang_b (erlang_b_inverse 5 (1/100) 20) 5 ≤ 1/100 :=
  (c3_inverse_minimal 5 (1/100) 20 (by norm_num) (by norm_num) (by norm_num)).1
    11 (by norm_num) (by norm_num) (by decide!)

/-- C4: for every `N ≥ 0` and `A ≥ 0` the blocking probability never raises
an uncaught exception, and every failure inside the try block is mapped to
the sentinel 1.0. -/
theorem c4_never_raises (N : ℕ) (A : ℚ) (h0 : 0 ≤ A) :
    erlang_bRun N A = .ok (erlang_b N A) ∧
      (∀ e, 1 ≤ N → erlang_bTry N A = .error e → erlang_b N A = 1) :=
  ⟨erlang_bRun_ok h0, fun _ hN he => erlang_b_err_val (by omega) he⟩

theorem c4_witness :
    (0 : ℚ) ≤ 1 ∧ erlang_bRun 171 1 = .ok (erlang_b 171 1) ∧ erlang_b 171 1 = 1 :=
  ⟨by norm_num, (c4_never_raises 171 1 (by norm_num)).1,
   (c4_never_raises 171 1 (by norm_num)).2 PyErr.overflow (by norm_num) (by decide!)⟩

/-- C5: `erlang_a_from_pr` raises the invalid-argument error exactly when
`N ≤ 0`; for `N ≥ 1` it returns 0.0 when `Pr ≤ 0` and the infinity sentinel
when `Pr ≥ 1`. -/
theorem c5_traffic_guards (N : ℤ) (Pr tol : ℚ) (maxIter : ℕ) (maxA : ℚ) (fuel : ℕ) :
    (erlang_a_from_pr N Pr tol maxIter maxA fuel = .error .valueErr ↔ N ≤ 0) ∧
    (1 ≤ N → Pr ≤ 0 → erlang_a_from_pr N Pr tol maxIter maxA fuel = .ok (some 0)) ∧
    (1 ≤ N → 1 ≤ Pr → erlang_a_from_pr N Pr tol maxIter maxA fuel = .ok none) := by
  refine ⟨⟨fun h => ?_, fun h => ?_⟩, fun hN hp => ?_, fun hN hp => ?_⟩
  · by_contra hc
    exact erlang_a_no_valueErr (by omega) Pr tol maxIter maxA fuel h
  · unfold erlang_a_from_pr
    rw [if_pos h]
  · unfold erlang_a_from_pr
    rw [if_neg (by omega), if_pos hp]
  · unfold erlang_a_from_pr
    rw [if_neg (by omega), if_neg (by linarith), if_pos hp]

theorem c5_witness :
    erlang_a_from_pr (-3) (1/2) (1/10^9) 100 (10^6) 64 = .error .valueErr ∧
    erlang_a_from_pr 4 0 (1/10^9) 100 (10^6) 64 = .ok (some 0) ∧
    erlang_a_from_pr 4 2 (1/10^9) 100 (10^6) 64 = .ok none :=
  ⟨(c5_traffic_guards (-3) (1/2) (1/10^9) 100 (10^6) 64).1.mpr (by norm_num),
   (c5_traffic_guards 4 0 (1/10^9) 100 (10^6) 64).2.1 (by norm_num) (by norm_num),
   (c5_traffic_guards 4 2 (1/10^9) 100 (10^6) 64).2.2 (by norm_num) (by norm_num)⟩

/-- C6: `erlang_b 0 A` is 1.0 for every `A > 0` and 0.0 for `A = 0`. -/
theorem c6_zero_servers (A : ℚ) :
    (0 < A → erlang_b 0 A = 1) ∧ (A = 0 → erlang_b 0 A = 0) := by
  constructor
  · intro h
    rw [erlang_b_zero_eq, if_pos h]
  · intro h
    rw [erlang_b_zero_eq, if_neg (by rw [h]; exact lt_irrefl 0)]

theorem c6_witness : erlang_b 0 7 = 1 ∧ erlang_b 0 0 = 0 :=
  ⟨(c6_zero_servers 7).1 (by norm_num), (c6_zero_servers 0).2 rfl⟩

/-- C7 fails as stated: at `N = 30`, `A = 1` the blocking probability
`Pr = erlang_b 30 1` is strictly between 0 and 1, yet the inversion returns
`1/2`, a 50 percent relative error from `A = 1`, far beyond the claimed
1e-3 relative tolerance (the bisection exits as soon as the function value
is within `tol` of `Pr`, which says nothing about closeness in `A`). -/
theorem c7_counterexample :
    (0 < erlang_b 30 1 ∧ erlang_b 30 1 < 1) ∧
    erlang_a_from_pr 30 (erlang_b 30 1) (1/10^9) 100 (10^6) 64 = .ok (some (1/2)) ∧
    ¬ (|(1/2 : ℚ) - 1| ≤ 1/1000 * 1) := by decide!

/-- C7 amended: for `N ≥ 1` and `A > 0` with `Pr = erlang_b N A` strictly
between 0 and 1, the inversion returns a finite non-negative value; the
1e-3-relative round trip back to `A` does not hold universally, but it does
hold (exactly) at the concrete scenario `N = 10`, `A = 5`. -/
theorem c7_round_trip_amended :
    (∀ (N : ℕ) (A tol maxA : ℚ) (maxIter fuel : ℕ), 1 ≤ N → 0 < A → 0 ≤ maxA →
      0 < erlang_b N A → erlang_b N A < 1 →
      ∃ a, erlang_a_from_pr (N : ℤ) (erlang_b N A) tol maxIter maxA fuel =
        .ok (some a) ∧ 0 ≤ a) ∧
    (erlang_a_from_pr 10 (erlang_b 10 5) (1/10^9) 100 (10^6) 64 = .ok (some 5) ∧
      |(5 : ℚ) - 5| ≤ 1/1000 * 5) := by
  constructor
  · intro N A tol maxA maxIter fuel hN hA hmaxA h0 h1
    exact (erlang_a_ok_nonneg (by exact_mod_cast hN) h0 h1 hmaxA).2
  · constructor
    · decide!
    · norm_num

theorem c7_witness :
    ∃ a, erlang_a_from_pr (30 : ℕ) (erlang_b 30 1) (1/10^9) 100 (10^6) 64 =
      .ok (some a) ∧ 0 ≤ a :=
  c7_round_trip_amended.1 30 1 (1/10^9) (10^6) 100 64 (by norm_num) (by norm_num)
    (by norm_num) (by decide!) (by decide!)

/-- C8: with `A = 5`, `targetPr = 0.01` and the default cap of 1000
servers, the minimal server count is exactly 11. -/
theorem c8_concrete_scenario : erlang_b_inverse 5 (1/100) 1000 = 11 := by decide!

/-- C9: for every `N ≥ 0` and `A ≥ 0` the value of `erlang_b` lies in
`[0, 1]`, on the normal path and on the overflow-sentinel path alike. -/
theorem c9_range (N : ℕ) (A : ℚ) (h0 : 0 ≤ A) :
    0 ≤ erlang_b N A ∧ erlang_b N A ≤ 1 :=
  ⟨erlang_b_nonneg h0, erlang_b_le_one h0⟩

theorem c9_witness : (0 : ℚ) ≤ 5 ∧ 0 ≤ erlang_b 3 5 ∧ erlang_b 3 5 ≤ 1 :=
  ⟨by norm_num, (c9_range 3 5 (by norm_num)).1, (c9_range 3 5 (by norm_num)).2⟩

/-- C10: for `N ≥ 1` and `0 < targetPr < 1` the traffic inversion
terminates without raising and returns a finite non-negative value; the
exception-handler fallback around the bracketing loop is unreachable
because `erlang_b` never raises on non-negative traffic. -/
theorem c10_safety (N : ℤ) (Pr tol maxA : ℚ) (maxIter fuel : ℕ)
    (hN : 1 ≤ N) (h0 : 0 < Pr) (h1 : Pr < 1) (hmaxA : 0 ≤ maxA) :
    bracketLoop N.toNat Pr maxA fuel 1 ≠ none ∧
      ∃ a, erlang_a_from_pr N Pr tol maxIter maxA fuel = .ok (some a) ∧ 0 ≤ a :=
  erlang_a_ok_nonneg hN h0 h1 hmaxA

theorem c10_witness :
    bracketLoop (5 : ℤ).toNat (1/50) (10^6) 64 1 ≠ none ∧
      ∃ a, erlang_a_from_pr 5 (1/50) (1/10^9) 100 (10^6) 64 = .ok (some a) ∧ 0 ≤ a :=
  c10_safety 5 (1/50) (1/10^9) (10^6) 100 64 (by norm_num) (by norm_num) (by norm_num)
    (by norm_num)
